import Mathlib

/-!
Verification of the metric-aggregation core of `metric_visualizer.py`
(class `MetricVisualizer`): the trial-indexed metric store
(`add_metric` / `next_trial`), the metric/trial `transpose` view, the
trial-label resolution used by the plotting functions and by `summary`,
the bar-plot reductions, and the pickle-based `dump` / `load` persistence.

The Python object state is embedded as a Lean structure, with Python's
insertion-ordered dicts embedded as association lists (first-occurrence
lookup, in-place value update, append on fresh keys), and numeric sample
values embedded as rationals.
-/

namespace MetricVis

/-- Numeric sample values (Python int/float inputs) are modelled as rationals. -/
abbrev Value := ℚ

/-- The inner dict of one metric: trial key `"trial-{id}"` to sample list. -/
abbrev TrialMap := List (String × List Value)

/-- The `self.metrics` dict: metric name to its trial dict. -/
abbrev MetricsMap := List (String × TrialMap)

/-- Python dict lookup `d[k]` / `k in d`: first occurrence in the
association list (insertion-ordered dicts never hold duplicate keys). -/
def alookup {β : Type} : List (String × β) → String → Option β
  | [], _ => none
  | (k, v) :: rest, key => if k = key then some v else alookup rest key

/-- Update the value stored at the first occurrence of `key`, leaving the
key sequence unchanged (Python dict update of an existing key). -/
def amodify {β : Type} : List (String × β) → String → (β → β) → List (String × β)
  | [], _, _ => []
  | (k, v) :: rest, key, f =>
      if k = key then (k, f v) :: rest else (k, v) :: amodify rest key f

/-- Python dict assignment `d[k] = v`: overwrite when the key is present,
otherwise append at the end (insertion order). -/
def aassign {β : Type} (l : List (String × β)) (key : String) (v : β) :
    List (String × β) :=
  if (alookup l key).isSome then amodify l key (fun _ => v) else l ++ [(key, v)]

/-- Two-level lookup `self.metrics[metric][trial]`. -/
def alookup2 (m : MetricsMap) (metric trial : String) : Option (List Value) :=
  (alookup m metric).bind (fun tm => alookup tm trial)

/-- The in-memory state of a `MetricVisualizer` object: the fields set by
`__init__` and mutated by `add_metric` / `next_trial`. -/
structure MV where
  name : String
  trial_tag : String
  trial_tag_list : List String
  metrics : MetricsMap
  trial_id : Nat
deriving DecidableEq

/-- The dict key `'trial-{}'.format(trial_id)`; `Nat.repr` is the decimal
rendering Python's `str.format` applies to the integer counter. -/
def trialKey (n : Nat) : String := "trial-" ++ Nat.repr n

/-- `MetricVisualizer.__init__`: empty trial tag falls back to `"Trial"`,
a missing `metric_dict` yields an empty ordered dict, and the trial
counter starts at 0. -/
def MVinit (name : String) (trial_tag : String) (trial_tag_list : List String)
    (metric_dict : Option MetricsMap) : MV :=
  { name := name
    trial_tag := if trial_tag = "" then "Trial" else trial_tag
    trial_tag_list := trial_tag_list
    metrics := metric_dict.getD []
    trial_id := 0 }

/-- A store built with all `__init__` defaults
(`name='unnamed'`, no tag, no tag list, no metric dict). -/
def freshMV : MV := MVinit "unnamed" "" [] none

/-- The inner branch of `add_metric` for an existing metric: create the
trial entry `[value]` when the trial key is absent, else append `value`
to the existing sample list. -/
def addSample (tm : TrialMap) (tkey : String) (value : Value) : TrialMap :=
  if (alookup tm tkey).isSome then amodify tm tkey (fun l => l ++ [value])
  else tm ++ [(tkey, [value])]

/-- `MetricVisualizer.add_metric(metric_name, value)`: membership test on
the metric dict, then creation or in-place extension of its trial dict. -/
def MV.add_metric (s : MV) (metric_name : String) (value : Value) : MV :=
  if (alookup s.metrics metric_name).isSome then
    let f : TrialMap → TrialMap := fun tm => addSample tm (trialKey s.trial_id) value
    { s with metrics := amodify s.metrics metric_name f }
  else
    { s with metrics := s.metrics ++ [(metric_name, [(trialKey s.trial_id, [value])])] }

/-- The default arguments of `add_metric`: `metric_name='Accuracy'`. -/
def addMetricDefaultName : String := "Accuracy"

/-- The default arguments of `add_metric`: `value=0`. -/
def addMetricDefaultValue : Value := 0

/-- `add_metric()` called with no arguments: both defaults apply. -/
def MV.add_metric_noargs (s : MV) : MV :=
  s.add_metric addMetricDefaultName addMetricDefaultValue

/-- `MetricVisualizer.next_trial`: increments the trial counter.  (It then
calls `self.dump()`, which writes a snapshot file and leaves the
in-memory state untouched; the file effect is modelled in the
persistence section below.) -/
def MV.next_trial (s : MV) : MV := { s with trial_id := s.trial_id + 1 }

/-- The store operations whose interleavings the invariants range over. -/
inductive Op where
  | addMetric (metric_name : String) (value : Value)
  | nextTrial
deriving DecidableEq

/-- Apply one operation to the store. -/
def applyOp (s : MV) : Op → MV
  | .addMetric n v => s.add_metric n v
  | .nextTrial => s.next_trial

/-- Run a sequence of operations from a given state. -/
def runFrom (s : MV) (ops : List Op) : MV := ops.foldl applyOp s

/-- Run a sequence of operations from a fresh store. -/
def runOps (ops : List Op) : MV := runFrom freshMV ops

/-- The number of `nextTrial` calls in an operation sequence. -/
def countNext : List Op → Nat
  | [] => 0
  | Op.nextTrial :: rest => countNext rest + 1
  | Op.addMetric _ _ :: rest => countNext rest

/-- The number of `nextTrial` calls after the first `addMetric` of a given
metric (`none` when the metric never appears): the claim's "nextTrial
calls made since the metric was first used". -/
def nextsSinceFirstUse : List Op → String → Option Nat
  | [], _ => none
  | Op.addMetric n _ :: rest, m =>
      if n = m then some (countNext rest) else nextsSinceFirstUse rest m
  | Op.nextTrial :: rest, m => nextsSinceFirstUse rest m

/-- The trial id current at each `addMetric` call of a given metric, in
call order, with the trial counter starting at `t`. -/
def addedTrialsFrom : Nat → List Op → String → List Nat
  | _, [], _ => []
  | t, Op.addMetric n _ :: rest, m =>
      if n = m then t :: addedTrialsFrom t rest m else addedTrialsFrom t rest m
  | t, Op.nextTrial :: rest, m => addedTrialsFrom (t + 1) rest m

/-- The trial ids at which a metric receives samples over a whole run. -/
def addedTrials (ops : List Op) (m : String) : List Nat := addedTrialsFrom 0 ops m

/-- Structural invariant of reachable stores: every metric's trial keys
are the rendered keys of a strictly increasing list of trial ids, all
bounded by the current trial counter. -/
def MVInv (s : MV) : Prop :=
  ∀ m tm, alookup s.metrics m = some tm →
    ∃ ids : List Nat, tm.map Prod.fst = ids.map trialKey ∧
      ids.Chain' (fun a b => a < b) ∧ ∀ i ∈ ids, i ≤ s.trial_id

/-- The decimal digit list of a natural number, most significant digit
first; reference rendering used to reason about the `trialKey` strings. -/
def digitsBase10 (n : Nat) : List Char :=
  if _h : n < 10 then [Nat.digitChar n]
  else digitsBase10 (n / 10) ++ [Nat.digitChar (n % 10)]
termination_by n
decreasing_by exact Nat.div_lt_self (by omega) (by omega)

/-- Numeric value of a decimal digit character. -/
def decodeDigit (c : Char) : Nat := c.toNat - 48

/-! ### Derived views: transpose, label resolution, reductions, summary -/

/-- One step of the inner loop of `transpose`: fold metric `mname`'s trial
dict into the accumulating trial-to-metric dict.  A missing trial entry is
first created empty (`transposed_metrics[trial] = {}`), then the metric's
sample list is assigned (`transposed_metrics[trial][metric] = samples`). -/
def insertTrials (mname : String) : TrialMap → MetricsMap → MetricsMap
  | [], acc => acc
  | (tkey, samples) :: rest, acc =>
      let acc1 := if (alookup acc tkey).isSome then acc else acc ++ [(tkey, [])]
      insertTrials mname rest (amodify acc1 tkey (fun inner => aassign inner mname samples))

/-- The outer loop of `transpose` over the metric names. -/
def transposeAux : MetricsMap → MetricsMap → MetricsMap
  | [], acc => acc
  | (mname, tm) :: rest, acc => transposeAux rest (insertTrials mname tm acc)

/-- `MetricVisualizer.transpose` as a function of the metric-to-trial
mapping it reads: swaps the two outer dict dimensions. -/
def transposeFn (m : MetricsMap) : MetricsMap := transposeAux m []

/-- `transpose` as the method on the store: reads `self.metrics`, returns
the transposed dict, and leaves the store as is. -/
def MV.transposeOp (s : MV) : MetricsMap × MV := (transposeFn s.metrics, s)

/-- Left-biased choice between two optional lookup results. -/
def ofirst {α : Type} (a b : Option α) : Option α :=
  match a with
  | some x => some x
  | none => b

/-- The key sequence obtained by folding keys into an accumulator,
keeping only first occurrences, as the `transpose` loop does with the
outer keys of its result dict. -/
def insertKeys : List String → List String → List String
  | acc, [] => acc
  | acc, t :: ts => insertKeys (if t ∈ acc then acc else acc ++ [t]) ts

/-- First-seen deduplication: the first occurrence of every element, in
order of first appearance. -/
def firstDedup {α : Type} [DecidableEq α] : List α → List α
  | [] => []
  | x :: xs => x :: firstDedup (xs.filter (fun y => decide (y ≠ x)))
termination_by l => l.length
decreasing_by
  simp only [List.length_cons]
  exact Nat.lt_succ_of_le (List.length_filter_le _ _)

/-- The outer dict keys are pairwise distinct (always true of a Python
dict; stated as a hypothesis on the association-list embedding). -/
abbrev OuterNodup (m : MetricsMap) : Prop := (m.map Prod.fst).Nodup

/-- Every inner trial dict has pairwise distinct keys. -/
abbrev InnerNodup (m : MetricsMap) : Prop := ∀ e ∈ m, (e.2.map Prod.fst).Nodup

/-- Trial-label resolution shared by the plotting functions (`traj_plot`,
`box_plot`, `avg_bar_plot`, `sum_bar_plot`, `violin_plot`): the configured
`trial_tag_list` only when non-empty and of length equal to the metric's
trial count, otherwise the metric's trial keys. -/
def resolvePlotLabels (ttl : List String) (tkeys : List String) : List String :=
  if ttl = [] ∨ ttl.length ≠ tkeys.length then tkeys else ttl

/-- Trial-label resolution in `summary`: as in the plots, except that a
configured list longer than the trial count is truncated to its first
trial-count entries instead of being discarded. -/
def resolveSummaryLabels (ttl : List String) (tkeys : List String) : List String :=
  if ttl = [] ∨ ttl.length ≠ tkeys.length then
    (if tkeys.length < ttl.length then ttl.take tkeys.length else tkeys)
  else ttl

/-- Insertion into a sorted list; `sortQ` is the sort underlying the
`np.median` / `scipy.stats.iqr` order statistics. -/
def insertSorted (x : Value) : List Value → List Value
  | [] => [x]
  | y :: ys => if x ≤ y then x :: y :: ys else y :: insertSorted x ys

/-- Sort a sample list in non-decreasing order. -/
def sortQ (l : List Value) : List Value := l.foldr insertSorted []

/-- `np.average`: sum of the samples over their count.  On an empty input
the float division 0/0 yields NaN, modelled as `none`; no exception is
raised. -/
def npAverage (l : List Value) : Option Value :=
  if l.length = 0 then none else some (l.sum / l.length)

/-- `np.sum`: sum of the samples; the empty input yields 0. -/
def npSum (l : List Value) : Value := l.sum

/-- `np.median`: middle element of the sorted samples, or the mean of the
two middle elements for even length; empty input yields NaN (`none`). -/
def npMedian (l : List Value) : Option Value :=
  let s := sortQ l
  if s.length = 0 then none
  else if s.length % 2 = 1 then some (s.getD (s.length / 2) 0)
  else some ((s.getD (s.length / 2 - 1) 0 + s.getD (s.length / 2) 0) / 2)

/-- `np.percentile` with midpoint interpolation at percentage `p`: the
mean of the sorted values at the floor and the ceiling of the fractional
rank `(p/100)*(n-1)`; empty input yields NaN (`none`). -/
def percentileMid (l : List Value) (p : Value) : Option Value :=
  let s := sortQ l
  if s.length = 0 then none
  else
    let h : Value := ((s.length : Value) - 1) * p / 100
    some ((s.getD (Int.toNat ⌊h⌋) 0 + s.getD (Int.toNat ⌈h⌉) 0) / 2)

/-- `scipy.stats.iqr(..., rng=(25, 75), interpolation='midpoint')`: the
75th minus the 25th midpoint percentile. -/
def iqrMid (l : List Value) : Option Value :=
  match percentileMid l 25, percentileMid l 75 with
  | some a, some b => some (b - a)
  | _, _ => none

/-- `np.max` over a sample list (`none` on empty input). -/
def npMax : List Value → Option Value
  | [] => none
  | x :: xs => some (xs.foldl max x)

/-- `np.min` over a sample list (`none` on empty input). -/
def npMin : List Value → Option Value
  | [] => none
  | x :: xs => some (xs.foldl min x)

/-- Python `round(x, 2)`: two-decimal rounding, modelled as exact rational
rounding (the half-to-even tie behaviour of binary floats is not
load-bearing for any claim). -/
def round2 (x : Value) : Value := (round (x * 100) : ℤ) / 100

/-- One row of the `summary` report per (metric, trial) pair: metric name,
resolved trial label, the first ten samples rounded to two decimals, and
the rounded statistics average / median / IQR / max / min (statistics of
an empty trial are NaN, modelled `none`; the textual tabulation of the row
is presentation and out of the modelled core). -/
def summaryRows (s : MV) : List (String × String × List Value × List (Option Value)) :=
  (s.metrics.map (fun me =>
    let labels := resolveSummaryLabels s.trial_tag_list (me.2.map Prod.fst)
    me.2.enum.map (fun itr =>
      (me.1, labels.getD itr.1 "",
       (itr.2.2.take 10).map round2,
       [(npAverage itr.2.2).map round2, (npMedian itr.2.2).map round2,
        (iqrMid itr.2.2).map round2, (npMax itr.2.2).map round2,
        (npMin itr.2.2).map round2])))).flatten

/-- `summary` as an operation on the store: computes the report rows and
leaves the store as is (printing and the optional file sink are
presentation effects outside the store). -/
def MV.summaryOp (s : MV) : List (String × String × List Value × List (Option Value)) × MV :=
  (summaryRows s, s)

/-- The bar heights computed inside `avg_bar_plot` for a fixed metric
name: `np.average` of every trial's sample list of that metric, in trial
insertion order (the list comprehension filters the outer metric loop on
`metric_name == m_name`). -/
def avgBarY (pm : MetricsMap) (mname : String) : List (Option Value) :=
  ((pm.filter (fun e => e.1 == mname)).map (fun e => e.2.map (fun tr => npAverage tr.2))).flatten

/-- The bar heights computed inside `sum_bar_plot` for a fixed metric
name: `np.sum` of every trial's sample list of that metric. -/
def sumBarY (pm : MetricsMap) (mname : String) : List Value :=
  ((pm.filter (fun e => e.1 == mname)).map (fun e => e.2.map (fun tr => npSum tr.2))).flatten

/-! ### Persistence: dump and load -/

/-- The blob store (files of the working tree): file name to the pickled
store it holds.  Pickling the pure-data `MetricVisualizer` object
round-trips, so a blob is modelled as the store value itself. -/
abbrev FileStore := List (String × MV)

/-- The dump file name `'{}-trial_id-{}-'.format(name, trial_id) + filename`. -/
def dumpName (s : MV) (filename : String) : String :=
  s.name ++ "-trial_id-" ++ Nat.repr s.trial_id ++ "-" ++ filename

/-- `MetricVisualizer.dump(filename)`: writes the pickled store under the
derived name, overwriting any existing file of that name. -/
def MV.dump (s : MV) (filename : String) (fs : FileStore) : FileStore :=
  aassign fs (dumpName s filename) s

/-- Whether the first character list is an initial segment of the second. -/
def startsList : List Char → List Char → Bool
  | [], _ => true
  | _ :: _, [] => false
  | a :: as, b :: bs => a == b && startsList as bs

/-- Whether `needle` occurs contiguously inside `hay`. -/
def containsList (needle : List Char) : List Char → Bool
  | [] => needle.isEmpty
  | b :: bs => startsList needle (b :: bs) || containsList needle bs

/-- The `find_cwd_files` match: the searched key occurs as a substring of
the candidate file path. -/
def containsSub (hay needle : String) : Bool := containsList needle.data hay.data

/-- Python's `<` on strings, on the underlying character lists:
lexicographic comparison of code points. -/
def strLtList : List Char → List Char → Bool
  | [], [] => false
  | [], _ :: _ => true
  | _ :: _, [] => false
  | a :: as, b :: bs =>
      if a.toNat < b.toNat then true
      else if b.toNat < a.toNat then false
      else strLtList as bs

/-- Python's `<` on strings. -/
def strLt (a b : String) : Bool := strLtList a.data b.data

/-- Python `max` over a list of strings (`none` on the empty list):
lexicographically greatest element, keeping the first among equals. -/
def pyMax : List String → Option String
  | [] => none
  | x :: xs => some (xs.foldl (fun acc s => if strLt acc s then s else acc) x)

/-- `MetricVisualizer.load(filename)`: a file of exactly that name is
unpickled directly; otherwise the working tree is searched for files whose
path contains `filename` and the `max` (lexicographically greatest) match
is loaded; zero matches raise `ValueError('Can not find ...')`. -/
def MV.load (filename : String) (fs : FileStore) : Except String MV :=
  match alookup fs filename with
  | some blob => Except.ok blob
  | none =>
      match pyMax ((fs.filter (fun e => containsSub e.1 filename)).map Prod.fst) with
      | none => Except.error ("Can not find " ++ filename)
      | some best =>
          match alookup fs best with
          | some blob => Except.ok blob
          | none => Except.error ("Can not find " ++ filename)

/-! ### Association-list lemmas -/

theorem alookup_append_of_none {β : Type} {l1 : List (String × β)}
    (l2 : List (String × β)) {k : String} (h : alookup l1 k = none) :
    alookup (l1 ++ l2) k = alookup l2 k := by
  induction l1 with
  | nil => rfl
  | cons e rest ih =>
      rw [alookup] at h
      by_cases hk : e.1 = k
      · simp [hk] at h
      · simpa [alookup, hk] using ih (by simpa [hk] using h)

theorem alookup_append_of_some {β : Type} {l1 : List (String × β)}
    (l2 : List (String × β)) {k : String} {v : β} (h : alookup l1 k = some v) :
    alookup (l1 ++ l2) k = some v := by
  induction l1 with
  | nil => simp [alookup] at h
  | cons e rest ih =>
      rw [alookup] at h
      by_cases hk : e.1 = k
      · simpa [alookup, hk] using by simpa [hk] using h
      · simpa [alookup, hk] using ih (by simpa [hk] using h)

theorem alookup_amodify_self {β : Type} (l : List (String × β)) (k : String)
    (f : β → β) : alookup (amodify l k f) k = (alookup l k).map f := by
  induction l with
  | nil => rfl
  | cons e rest ih =>
      by_cases hk : e.1 = k
      · simp [alookup, amodify, hk]
      · simpa [alookup, amodify, hk] using ih

theorem alookup_amodify_of_ne {β : Type} (l : List (String × β)) {k k' : String}
    (f : β → β) (h : k' ≠ k) : alookup (amodify l k f) k' = alookup l k' := by
  induction l with
  | nil => rfl
  | cons e rest ih =>
      obtain ⟨a, b⟩ := e
      by_cases hk : a = k
      · have hne : ¬ k = k' := fun hc => h hc.symm
        simp [alookup, amodify, hk, hne]
      · by_cases hk' : a = k'
        · simp [alookup, amodify, hk, hk', h]
        · simp [alookup, amodify, hk, hk', ih]

theorem keys_amodify {β : Type} (l : List (String × β)) (k : String)
    (f : β → β) : (amodify l k f).map Prod.fst = l.map Prod.fst := by
  induction l with
  | nil => rfl
  | cons e rest ih =>
      by_cases hk : e.1 = k
      · simp [amodify, hk]
      · simp [amodify, hk, ih]

theorem alookup_eq_none_iff {β : Type} (l : List (String × β)) (k : String) :
    alookup l k = none ↔ k ∉ l.map Prod.fst := by
  induction l with
  | nil => simp [alookup]
  | cons e rest ih =>
      obtain ⟨a, b⟩ := e
      by_cases hk : a = k
      · simp [alookup, hk]
      · have hk2 : ¬ k = a := fun hc => hk hc.symm
        simp [alookup, hk, hk2, ih]

theorem alookup_isSome_iff {β : Type} (l : List (String × β)) (k : String) :
    (alookup l k).isSome = true ↔ k ∈ l.map Prod.fst := by
  constructor
  · intro hs
    by_contra hm
    rw [(alookup_eq_none_iff l k).mpr hm] at hs
    simp at hs
  · intro hm
    cases h : alookup l k with
    | some v => simp
    | none => exact absurd hm ((alookup_eq_none_iff l k).mp h)

theorem alookup_aassign_self {β : Type} (l : List (String × β)) (k : String) (v : β) :
    alookup (aassign l k v) k = some v := by
  rw [aassign]
  cases h : alookup l k with
  | some w =>
      simp only [h, Option.isSome_some, if_true]
      rw [alookup_amodify_self, h]
      rfl
  | none =>
      simp only [h, Option.isSome_none, Bool.false_eq_true, if_false]
      rw [alookup_append_of_none _ h]
      simp [alookup]

theorem alookup_aassign_of_ne {β : Type} (l : List (String × β)) {k k' : String}
    (v : β) (h : k' ≠ k) : alookup (aassign l k v) k' = alookup l k' := by
  rw [aassign]
  cases hq : alookup l k with
  | some w =>
      simp only [hq, Option.isSome_some, if_true]
      exact alookup_amodify_of_ne l _ h
  | none =>
      simp only [hq, Option.isSome_none, Bool.false_eq_true, if_false]
      cases hk' : alookup l k' with
      | some w => exact alookup_append_of_some _ hk'
      | none =>
          rw [alookup_append_of_none _ hk']
          have h2 : ¬ k = k' := fun hc => h hc.symm
          simp [alookup, h2]

theorem keys_aassign_of_some {β : Type} (l : List (String × β)) (k : String)
    (v w : β) (h : alookup l k = some w) :
    (aassign l k v).map Prod.fst = l.map Prod.fst := by
  rw [aassign, if_pos (by simp [h]), keys_amodify]

theorem keys_aassign_of_none {β : Type} (l : List (String × β)) (k : String)
    (v : β) (h : alookup l k = none) :
    (aassign l k v).map Prod.fst = l.map Prod.fst ++ [k] := by
  rw [aassign]
  simp only [h, Option.isSome_none, Bool.false_eq_true, if_false, List.map_append]
  rfl

theorem nodup_keys_aassign {β : Type} (l : List (String × β)) (k : String) (v : β)
    (h : (l.map Prod.fst).Nodup) : ((aassign l k v).map Prod.fst).Nodup := by
  cases hq : alookup l k with
  | some w => rw [keys_aassign_of_some l k v w hq]; exact h
  | none =>
      rw [keys_aassign_of_none l k v hq]
      have hm : k ∉ l.map Prod.fst := (alookup_eq_none_iff l k).mp hq
      simp [List.nodup_append, h, hm]

/-! ### Transpose lemmas -/

theorem insertTrials_lookup_of_ne (mname : String) (tm : TrialMap) {k : String}
    (hk : k ≠ mname) : ∀ (acc : MetricsMap) (t : String),
    alookup2 (insertTrials mname tm acc) t k = alookup2 acc t k := by
  induction tm with
  | nil => intro acc t; rfl
  | cons e rest ih =>
      intro acc t
      obtain ⟨tkey, samples⟩ := e
      simp only [insertTrials]
      rw [ih]
      by_cases ht : t = tkey
      · subst ht
        cases h : alookup acc t with
        | some inner =>
            rw [alookup2, alookup2]
            simp only [h, Option.isSome_some, if_true]
            rw [alookup_amodify_self, h, Option.map_some', Option.some_bind',
              alookup_aassign_of_ne _ _ hk]
            rfl
        | none =>
            rw [alookup2, alookup2]
            simp only [h, Option.isSome_none, Bool.false_eq_true, if_false]
            rw [alookup_amodify_self, alookup_append_of_none _ h]
            have h4 : ¬ mname = k := fun hc => hk hc.symm
            simp [alookup, alookup_aassign_of_ne _ _ hk, aassign, h4]
      · rw [alookup2, alookup2, alookup_amodify_of_ne _ _ ht]
        cases h : alookup acc tkey with
        | some w => simp only [h, Option.isSome_some, if_true]
        | none =>
            simp only [h, Option.isSome_none, Bool.false_eq_true, if_false]
            cases h2 : alookup acc t with
            | some w => rw [alookup_append_of_some _ h2]
            | none =>
                rw [alookup_append_of_none _ h2]
                have h3 : ¬ tkey = t := fun hc => ht hc.symm
                simp [alookup, h3, h2]

theorem insertTrials_lookup_self (mname : String) : ∀ (tm : TrialMap),
    (tm.map Prod.fst).Nodup → ∀ (acc : MetricsMap) (t : String),
    alookup2 (insertTrials mname tm acc) t mname =
      ofirst (alookup tm t) (alookup2 acc t mname) := by
  intro tm
  induction tm with
  | nil => intro _ acc t; rfl
  | cons e rest ih =>
      intro hnd acc t
      obtain ⟨tkey, samples⟩ := e
      have hnd' : (tkey :: rest.map Prod.fst).Nodup := by simpa using hnd
      have hnd1 : tkey ∉ rest.map Prod.fst := (List.nodup_cons.mp hnd').1
      have hnd2 : (rest.map Prod.fst).Nodup := (List.nodup_cons.mp hnd').2
      simp only [insertTrials]
      rw [ih hnd2]
      by_cases ht : t = tkey
      · subst ht
        have hr : alookup rest t = none := (alookup_eq_none_iff _ _).mpr hnd1
        rw [hr]
        cases h : alookup acc t with
        | some inner =>
            simp only [h, Option.isSome_some, if_true]
            rw [alookup2, alookup_amodify_self, h, Option.map_some',
              Option.some_bind', alookup_aassign_self]
            simp [ofirst, alookup]
        | none =>
            simp only [h, Option.isSome_none, Bool.false_eq_true, if_false]
            rw [alookup2, alookup_amodify_self, alookup_append_of_none _ h]
            simp [alookup, alookup_aassign_self, ofirst]
      · have h3 : ¬ tkey = t := fun hc => ht hc.symm
        rw [alookup2, alookup2, alookup_amodify_of_ne _ _ ht]
        cases h : alookup acc tkey with
        | some w => simp only [h, Option.isSome_some, if_true, alookup, h3, if_false]
        | none =>
            simp only [h, Option.isSome_none, Bool.false_eq_true, if_false]
            cases h2 : alookup acc t with
            | some w => rw [alookup_append_of_some _ h2]; simp [alookup, h3, h2]
            | none =>
                rw [alookup_append_of_none _ h2]
                simp [alookup, h3, h2]

theorem transposeAux_lookup : ∀ (m : MetricsMap), OuterNodup m → InnerNodup m →
    ∀ (acc : MetricsMap) (t k : String),
    alookup2 (transposeAux m acc) t k = ofirst (alookup2 m k t) (alookup2 acc t k) := by
  intro m
  induction m with
  | nil => intro _ _ acc t k; simp [transposeAux, alookup2, alookup, ofirst]
  | cons e rest ih =>
      intro ho hi acc t k
      obtain ⟨mname, tm⟩ := e
      have ho' : (mname :: rest.map Prod.fst).Nodup := by simpa [OuterNodup] using ho
      have ho1 : mname ∉ rest.map Prod.fst := (List.nodup_cons.mp ho').1
      have ho2 : OuterNodup rest := (List.nodup_cons.mp ho').2
      have hi1 : (tm.map Prod.fst).Nodup := hi (mname, tm) (List.mem_cons_self _ _)
      have hi2 : InnerNodup rest := fun e2 he => hi e2 (List.mem_cons_of_mem _ he)
      rw [transposeAux, ih ho2 hi2]
      by_cases hk : k = mname
      · subst hk
        have hrest : alookup rest k = none := (alookup_eq_none_iff _ _).mpr ho1
        rw [insertTrials_lookup_self k tm hi1]
        simp [ofirst, alookup2, alookup, hrest]
      · rw [insertTrials_lookup_of_ne mname tm hk]
        have h3 : ¬ mname = k := fun hc => hk hc.symm
        simp [alookup2, alookup, h3]

theorem transposeFn_lookup (m : MetricsMap) (ho : OuterNodup m) (hi : InnerNodup m)
    (t k : String) : alookup2 (transposeFn m) t k = alookup2 m k t := by
  rw [transposeFn, transposeAux_lookup m ho hi]
  cases h : alookup2 m k t <;> simp [ofirst, alookup2, alookup]

theorem keys_insertTrials (mname : String) : ∀ (tm : TrialMap) (acc : MetricsMap),
    (insertTrials mname tm acc).map Prod.fst =
      insertKeys (acc.map Prod.fst) (tm.map Prod.fst) := by
  intro tm
  induction tm with
  | nil => intro acc; rfl
  | cons e rest ih =>
      intro acc
      obtain ⟨tkey, samples⟩ := e
      simp only [insertTrials, List.map_cons]
      rw [ih, insertKeys]
      have harg : (amodify (if (alookup acc tkey).isSome then acc else acc ++ [(tkey, [])])
            tkey (fun inner => aassign inner mname samples)).map Prod.fst =
          (if tkey ∈ acc.map Prod.fst then acc.map Prod.fst else acc.map Prod.fst ++ [tkey]) := by
        rw [keys_amodify]
        cases h : alookup acc tkey with
        | some w =>
            have hm : tkey ∈ acc.map Prod.fst := (alookup_isSome_iff _ _).mp (by simp [h])
            simp [h, hm]
        | none =>
            have hm : tkey ∉ acc.map Prod.fst := (alookup_eq_none_iff _ _).mp h
            simp [h, hm]
      rw [harg]

theorem insertKeys_append : ∀ (ts1 ts2 acc : List String),
    insertKeys acc (ts1 ++ ts2) = insertKeys (insertKeys acc ts1) ts2 := by
  intro ts1
  induction ts1 with
  | nil => intro ts2 acc; rfl
  | cons t ts ih =>
      intro ts2 acc
      simp only [List.cons_append, insertKeys]
      exact ih ts2 _

theorem keys_transposeAux : ∀ (m acc : MetricsMap),
    (transposeAux m acc).map Prod.fst =
      insertKeys (acc.map Prod.fst) ((m.map (fun e => e.2.map Prod.fst)).flatten) := by
  intro m
  induction m with
  | nil => intro acc; rfl
  | cons e rest ih =>
      intro acc
      obtain ⟨mname, tm⟩ := e
      simp only [transposeAux, List.map_cons, List.flatten_cons]
      rw [ih, keys_insertTrials, insertKeys_append]

theorem insertKeys_eq_firstDedup : ∀ (ts acc : List String),
    insertKeys acc ts = acc ++ firstDedup (ts.filter (fun t => decide (t ∉ acc))) := by
  intro ts
  induction ts with
  | nil => intro acc; simp [insertKeys, firstDedup]
  | cons t ts ih =>
      intro acc
      rw [insertKeys]
      by_cases h : t ∈ acc
      · rw [if_pos h, ih]
        have : (List.filter (fun x => decide (x ∉ acc)) (t :: ts)) =
            List.filter (fun x => decide (x ∉ acc)) ts := by
          simp [List.filter, h]
        rw [this]
      · rw [if_neg h, ih]
        have h1 : (List.filter (fun x => decide (x ∉ acc)) (t :: ts)) =
            t :: List.filter (fun x => decide (x ∉ acc)) ts := by
          simp [List.filter, h]
        rw [h1, firstDedup]
        have h2 : (List.filter (fun y => decide (y ≠ t))
              (List.filter (fun x => decide (x ∉ acc)) ts)) =
            List.filter (fun x => decide (x ∉ acc ++ [t])) ts := by
          rw [List.filter_filter]
          apply List.filter_congr
          intro a _
          by_cases hat : a = t
          · simp [hat]
          · by_cases haa : a ∈ acc <;> simp [hat, haa]
        rw [h2]
        simp [List.append_assoc]

theorem keys_transposeFn (m : MetricsMap) :
    (transposeFn m).map Prod.fst =
      firstDedup ((m.map (fun e => e.2.map Prod.fst)).flatten) := by
  rw [transposeFn, keys_transposeAux, insertKeys_eq_firstDedup]
  have h1 : (([] : MetricsMap).map Prod.fst) = ([] : List String) := rfl
  rw [h1]
  have h2 : List.filter (fun t => decide (t ∉ ([] : List String)))
        ((m.map (fun e => e.2.map Prod.fst)).flatten) =
      (m.map (fun e => e.2.map Prod.fst)).flatten := by
    rw [List.filter_eq_self]
    intro a _
    simp
  rw [h2, List.nil_append]

theorem mem_of_mem_firstDedup {α : Type} [DecidableEq α] :
    ∀ (l : List α) (a : α), a ∈ firstDedup l → a ∈ l := by
  intro l
  induction l using firstDedup.induct with
  | case1 =>
      intro a ha
      rw [firstDedup] at ha
      exact absurd ha (List.not_mem_nil a)
  | case2 x xs ih =>
      intro a ha
      rw [firstDedup] at ha
      rcases List.mem_cons.mp ha with h | h
      · exact h ▸ List.mem_cons_self _ _
      · exact List.mem_cons_of_mem _ (List.mem_of_mem_filter (ih a h))

theorem firstDedup_nodup {α : Type} [DecidableEq α] :
    ∀ (l : List α), (firstDedup l).Nodup := by
  intro l
  induction l using firstDedup.induct with
  | case1 => simp [firstDedup]
  | case2 x xs ih =>
      rw [firstDedup]
      refine List.nodup_cons.mpr ⟨?_, ih⟩
      intro hx
      have hmem := mem_of_mem_firstDedup _ _ hx
      rw [List.mem_filter] at hmem
      simp at hmem

theorem amodify_preserve {β : Type} (P : String × β → Prop) :
    ∀ {l : List (String × β)} {k : String} {f : β → β},
    (∀ e ∈ l, P e) → (∀ a b, P (a, b) → P (a, f b)) → ∀ e ∈ amodify l k f, P e := by
  intro l
  induction l with
  | nil => intro k f _ _ e he; simp [amodify] at he
  | cons e0 rest ih =>
      intro k f hl hf e he
      obtain ⟨a, b⟩ := e0
      rw [amodify] at he
      by_cases h : a = k
      · rw [if_pos h] at he
        rcases List.mem_cons.mp he with h1 | h1
        · subst h1; exact hf a b (hl (a, b) (List.mem_cons_self _ _))
        · exact hl e (List.mem_cons_of_mem _ h1)
      · rw [if_neg h] at he
        rcases List.mem_cons.mp he with h1 | h1
        · subst h1; exact hl (a, b) (List.mem_cons_self _ _)
        · exact ih (fun e2 he2 => hl e2 (List.mem_cons_of_mem _ he2)) hf e h1

theorem innerNodup_insertTrials (mname : String) : ∀ (tm : TrialMap) (acc : MetricsMap),
    (∀ e ∈ acc, (e.2.map Prod.fst).Nodup) →
    ∀ e ∈ insertTrials mname tm acc, (e.2.map Prod.fst).Nodup := by
  intro tm
  induction tm with
  | nil => intro acc h; exact h
  | cons e0 rest ih =>
      intro acc hacc
      obtain ⟨tkey, samples⟩ := e0
      simp only [insertTrials]
      apply ih
      refine amodify_preserve (fun (e : String × TrialMap) => (e.2.map Prod.fst).Nodup) ?_ ?_
      · cases h : alookup acc tkey with
        | some w => simp only [h, Option.isSome_some, if_true]; exact hacc
        | none =>
            simp only [h, Option.isSome_none, Bool.false_eq_true, if_false]
            intro e he
            rcases List.mem_append.mp he with h1 | h1
            · exact hacc e h1
            · have he2 : e = (tkey, ([] : TrialMap)) := by simpa using h1
              subst he2; simp
      · intro a b hb
        exact nodup_keys_aassign b mname samples hb

theorem innerNodup_transposeAux : ∀ (m acc : MetricsMap),
    (∀ e ∈ acc, (e.2.map Prod.fst).Nodup) → InnerNodup (transposeAux m acc) := by
  intro m
  induction m with
  | nil => intro acc h; exact h
  | cons e0 rest ih =>
      intro acc hacc
      obtain ⟨mname, tm⟩ := e0
      rw [transposeAux]
      exact ih _ (innerNodup_insertTrials mname tm acc hacc)

theorem innerNodup_transposeFn (m : MetricsMap) : InnerNodup (transposeFn m) :=
  innerNodup_transposeAux m [] (by simp)

theorem outerNodup_transposeFn (m : MetricsMap) : OuterNodup (transposeFn m) := by
  rw [OuterNodup, keys_transposeFn]
  exact firstDedup_nodup _

/-! ### Injectivity of the trial-key rendering -/

theorem toDigitsCore_eq_digitsBase10 : ∀ (fuel n : Nat) (ds : List Char),
    n < 10 ^ fuel → 1 ≤ fuel →
    Nat.toDigitsCore 10 fuel n ds = digitsBase10 n ++ ds := by
  intro fuel
  induction fuel with
  | zero => intro n ds _ h1; omega
  | succ f ih =>
      intro n ds hlt _
      simp only [Nat.toDigitsCore]
      by_cases h0 : n / 10 = 0
      · rw [if_pos h0]
        have hn : n < 10 := by omega
        rw [digitsBase10, dif_pos hn, Nat.mod_eq_of_lt hn]
        rfl
      · rw [if_neg h0]
        have hn : ¬ n < 10 := by omega
        have hf : 1 ≤ f := by
          rcases Nat.eq_zero_or_pos f with rfl | hp
          · rw [pow_one] at hlt; omega
          · exact hp
        have hlt2 : n / 10 < 10 ^ f := by
          rw [Nat.div_lt_iff_lt_mul (by omega : 0 < 10)]
          calc n < 10 ^ (f + 1) := hlt
          _ = 10 ^ f * 10 := by rw [pow_succ]
        rw [ih (n / 10) _ hlt2 hf]
        conv_rhs => rw [digitsBase10]
        rw [dif_neg hn]
        simp [List.append_assoc]

theorem repr_eq_digitsBase10 (n : Nat) : Nat.repr n = (digitsBase10 n).asString := by
  rw [Nat.repr, Nat.toDigits]
  rw [toDigitsCore_eq_digitsBase10 (n + 1) n [] ?_ (by omega)]
  · simp
  · calc n < 10 ^ n := Nat.lt_pow_self (by norm_num) n
    _ ≤ 10 ^ (n + 1) := Nat.pow_le_pow_right (by norm_num) (by omega)

theorem decode_digitChar {n : Nat} (h : n < 10) : decodeDigit (Nat.digitChar n) = n := by
  interval_cases n <;> rfl

theorem decodeDigits_digitsBase10 : ∀ (n : Nat), ∀ (acc : Nat),
    List.foldl (fun a c => a * 10 + decodeDigit c) acc (digitsBase10 n) =
      acc * 10 ^ (digitsBase10 n).length + n := by
  intro n
  induction n using Nat.strong_induction_on with
  | _ n ih =>
      intro acc
      by_cases h : n < 10
      · rw [digitsBase10, dif_pos h]
        simp [List.foldl, decode_digitChar h]
      · rw [digitsBase10, dif_neg h]
        rw [List.foldl_append]
        rw [ih (n / 10) (Nat.div_lt_self (by omega) (by omega)) acc]
        have hmod : n % 10 < 10 := Nat.mod_lt n (by omega)
        simp only [List.foldl, decode_digitChar hmod, List.length_append,
          List.length_cons, List.length_nil]
        have h2 : n / 10 * 10 + n % 10 = n := by omega
        calc (acc * 10 ^ (digitsBase10 (n / 10)).length + n / 10) * 10 + n % 10
            = acc * (10 ^ (digitsBase10 (n / 10)).length * 10) +
              (n / 10 * 10 + n % 10) := by ring
          _ = acc * 10 ^ ((digitsBase10 (n / 10)).length + (0 + 1)) + n := by
              rw [h2, Nat.zero_add, pow_succ]
  -- the length arithmetic above matches the simplified goal shape

theorem digitsBase10_inj {a b : Nat} (h : digitsBase10 a = digitsBase10 b) : a = b := by
  have ha := decodeDigits_digitsBase10 a 0
  have hb := decodeDigits_digitsBase10 b 0
  rw [h] at ha
  simp only [Nat.zero_mul, Nat.zero_add] at ha hb
  exact ha.symm.trans hb

theorem repr_inj {a b : Nat} (h : Nat.repr a = Nat.repr b) : a = b := by
  rw [repr_eq_digitsBase10, repr_eq_digitsBase10] at h
  exact digitsBase10_inj (List.asString_inj.mp h)

theorem trialKey_inj {a b : Nat} (h : trialKey a = trialKey b) : a = b := by
  rw [trialKey, trialKey] at h
  have hd : ("trial-".data ++ (Nat.repr a).data) = ("trial-".data ++ (Nat.repr b).data) := by
    have h2 := congrArg String.data h
    simpa [String.data_append] using h2
  exact repr_inj (String.ext (List.append_cancel_left hd))

/-! ### Reachable-store invariants -/

theorem MVInv_fresh : MVInv freshMV := by
  intro m tm h
  simp [freshMV, MVinit, alookup] at h

theorem MVInv_next {s : MV} (h : MVInv s) : MVInv s.next_trial := by
  intro m tm hm
  obtain ⟨ids, h1, h2, h3⟩ := h m tm hm
  exact ⟨ids, h1, h2, fun i hi => Nat.le_succ_of_le (h3 i hi)⟩

theorem MVInv_add {s : MV} (n : String) (v : Value) (h : MVInv s) :
    MVInv (s.add_metric n v) := by
  have htid : (s.add_metric n v).trial_id = s.trial_id := by
    simp only [MV.add_metric]
    split <;> rfl
  intro m tm hm
  rw [htid]
  simp only [MV.add_metric] at hm
  cases hq : alookup s.metrics n with
  | some w =>
      rw [hq] at hm
      simp only [Option.isSome_some, if_true] at hm
      by_cases hmn : m = n
      · subst hmn
        rw [alookup_amodify_self, hq, Option.map_some'] at hm
        have htm : tm = addSample w (trialKey s.trial_id) v := (Option.some.inj hm).symm
        obtain ⟨ids, h1, h2, h3⟩ := h m w hq
        rw [addSample] at htm
        cases ht : alookup w (trialKey s.trial_id) with
        | some l0 =>
            rw [ht] at htm
            simp only [Option.isSome_some, if_true] at htm
            subst htm
            exact ⟨ids, by rw [keys_amodify]; exact h1, h2, h3⟩
        | none =>
            rw [ht] at htm
            simp only [Option.isSome_none, Bool.false_eq_true, if_false] at htm
            subst htm
            have hnotin : s.trial_id ∉ ids := by
              intro hin
              have hmem : trialKey s.trial_id ∈ w.map Prod.fst := by
                rw [h1]; exact List.mem_map_of_mem _ hin
              exact absurd hmem ((alookup_eq_none_iff _ _).mp ht)
            refine ⟨ids ++ [s.trial_id], by simp [h1], ?_, ?_⟩
            · rw [List.chain'_iff_pairwise, List.pairwise_append]
              refine ⟨List.chain'_iff_pairwise.mp h2, by simp, ?_⟩
              intro a ha b hb
              have hb2 : b = s.trial_id := by simpa using hb
              subst hb2
              exact lt_of_le_of_ne (h3 a ha) (fun hc => hnotin (hc ▸ ha))
            · intro i hi
              rcases List.mem_append.mp hi with h4 | h4
              · exact h3 i h4
              · have h5 : i = s.trial_id := by simpa using h4
                exact le_of_eq h5
      · rw [alookup_amodify_of_ne _ _ hmn] at hm
        exact h m tm hm
  | none =>
      rw [hq] at hm
      simp only [Option.isSome_none, Bool.false_eq_true, if_false] at hm
      by_cases hmn : m = n
      · subst hmn
        rw [alookup_append_of_none _ hq] at hm
        have htm : tm = [(trialKey s.trial_id, [v])] := by
          have := hm.symm
          simpa [alookup] using this
        subst htm
        exact ⟨[s.trial_id], by simp, by simp, by simp⟩
      · cases hq2 : alookup s.metrics m with
        | some w2 =>
            rw [alookup_append_of_some _ hq2] at hm
            have htm : w2 = tm := Option.some.inj hm
            subst htm
            exact h m w2 hq2
        | none =>
            rw [alookup_append_of_none _ hq2] at hm
            have h3 : ¬ n = m := fun hc => hmn hc.symm
            simp [alookup, h3] at hm

theorem MVInv_applyOp {s : MV} (op : Op) (h : MVInv s) : MVInv (applyOp s op) := by
  cases op with
  | addMetric n v => exact MVInv_add n v h
  | nextTrial => exact MVInv_next h

theorem MVInv_runFrom : ∀ (ops : List Op) (s : MV), MVInv s → MVInv (runFrom s ops) := by
  intro ops
  induction ops with
  | nil => intro s h; exact h
  | cons op rest ih => intro s h; exact ih _ (MVInv_applyOp op h)

theorem MVInv_runOps (ops : List Op) : MVInv (runOps ops) :=
  MVInv_runFrom ops freshMV MVInv_fresh

theorem runOps_append (ops more : List Op) :
    runOps (ops ++ more) = runFrom (runOps ops) more := by
  rw [runOps, runFrom, List.foldl_append]
  rfl

theorem metric_persists_step (s : MV) (op : Op) (m : String)
    (h : (alookup s.metrics m).isSome = true) :
    (alookup (applyOp s op).metrics m).isSome = true := by
  cases op with
  | nextTrial => exact h
  | addMetric n v =>
      simp only [applyOp, MV.add_metric]
      cases hq : alookup s.metrics n with
      | some w =>
          simp only [Option.isSome_some, if_true]
          by_cases hmn : m = n
          · subst hmn; rw [alookup_amodify_self, hq]; rfl
          · rw [alookup_amodify_of_ne _ _ hmn]; exact h
      | none =>
          simp only [Option.isSome_none, Bool.false_eq_true, if_false]
          cases hq2 : alookup s.metrics m with
          | some w2 => rw [alookup_append_of_some _ hq2]; rfl
          | none => rw [hq2] at h; simp at h

theorem metric_persists_runFrom : ∀ (more : List Op) (s : MV) (m : String),
    (alookup s.metrics m).isSome = true →
    (alookup (runFrom s more).metrics m).isSome = true := by
  intro more
  induction more with
  | nil => intro s m h; exact h
  | cons op rest ih => intro s m h; exact ih _ m (metric_persists_step s op m h)

theorem samples_extend_step (s : MV) (op : Op) (m t : String) (l : List Value)
    (h : alookup2 s.metrics m t = some l) :
    ∃ l2, alookup2 (applyOp s op).metrics m t = some (l ++ l2) := by
  cases op with
  | nextTrial => exact ⟨[], by simpa using h⟩
  | addMetric n v =>
      simp only [applyOp, MV.add_metric]
      cases hq : alookup s.metrics n with
      | some w =>
          simp only [Option.isSome_some, if_true]
          by_cases hmn : m = n
          · subst hmn
            rw [alookup2, hq, Option.some_bind'] at h
            rw [alookup2, alookup_amodify_self, hq, Option.map_some', Option.some_bind']
            rw [addSample]
            by_cases htt : t = trialKey s.trial_id
            · subst htt
              rw [h]
              simp only [Option.isSome_some, if_true]
              rw [alookup_amodify_self, h]
              exact ⟨[v], rfl⟩
            · have htt2 : ¬ trialKey s.trial_id = t := fun hc => htt hc.symm
              cases ht : alookup w (trialKey s.trial_id) with
              | some l0 =>
                  simp only [Option.isSome_some, if_true]
                  rw [alookup_amodify_of_ne _ _ htt, h]
                  exact ⟨[], by simp⟩
              | none =>
                  simp only [Option.isSome_none, Bool.false_eq_true, if_false]
                  rw [alookup_append_of_some _ h]
                  exact ⟨[], by simp⟩
          · rw [alookup2, alookup_amodify_of_ne _ _ hmn]
            exact ⟨[], by simpa [alookup2] using h⟩
      | none =>
          simp only [Option.isSome_none, Bool.false_eq_true, if_false]
          by_cases hmn : m = n
          · subst hmn
            rw [alookup2, hq] at h
            simp at h
          · rw [alookup2]
            cases hq2 : alookup s.metrics m with
            | some w2 =>
                rw [alookup_append_of_some _ hq2]
                rw [alookup2, hq2] at h
                exact ⟨[], by simpa using h⟩
            | none => rw [alookup2, hq2] at h; simp at h

theorem samples_extend_runFrom : ∀ (more : List Op) (s : MV) (m t : String)
    (l : List Value), alookup2 s.metrics m t = some l →
    ∃ l2, alookup2 (runFrom s more).metrics m t = some (l ++ l2) := by
  intro more
  induction more with
  | nil => intro s m t l h; exact ⟨[], by simpa using h⟩
  | cons op rest ih =>
      intro s m t l h
      obtain ⟨l2, h2⟩ := samples_extend_step s op m t l h
      obtain ⟨l3, h3⟩ := ih (applyOp s op) m t (l ++ l2) h2
      exact ⟨l2 ++ l3, by simpa [List.append_assoc] using h3⟩

theorem add_metric_other_trials (s : MV) (n : String) (v : Value) (m t : String)
    (htr : t ≠ trialKey s.trial_id) :
    alookup2 (s.add_metric n v).metrics m t = alookup2 s.metrics m t := by
  simp only [MV.add_metric]
  cases hq : alookup s.metrics n with
  | some w =>
      simp only [Option.isSome_some, if_true]
      by_cases hmn : m = n
      · subst hmn
        rw [alookup2, alookup2, alookup_amodify_self, hq, Option.map_some',
          Option.some_bind', Option.some_bind']
        rw [addSample]
        cases ht : alookup w (trialKey s.trial_id) with
        | some l0 =>
            simp only [Option.isSome_some, if_true]
            exact alookup_amodify_of_ne _ _ htr
        | none =>
            simp only [Option.isSome_none, Bool.false_eq_true, if_false]
            cases ht2 : alookup w t with
            | some l1 => exact alookup_append_of_some _ ht2
            | none =>
                rw [alookup_append_of_none _ ht2]
                have h3 : ¬ trialKey s.trial_id = t := fun hc => htr hc.symm
                simp [alookup, h3, ht2]
      · rw [alookup2, alookup2, alookup_amodify_of_ne _ _ hmn]
  | none =>
      simp only [Option.isSome_none, Bool.false_eq_true, if_false]
      by_cases hmn : m = n
      · subst hmn
        rw [alookup2, alookup2, alookup_append_of_none _ hq, hq]
        have h3 : ¬ trialKey s.trial_id = t := fun hc => htr hc.symm
        simp [alookup, h3]
      · rw [alookup2, alookup2]
        cases hq2 : alookup s.metrics m with
        | some w2 => rw [alookup_append_of_some _ hq2]
        | none =>
            rw [alookup_append_of_none _ hq2]
            have h3 : ¬ n = m := fun hc => hmn hc.symm
            simp [alookup, h3]

/-! ### Trial-count bookkeeping (C2) -/

theorem add_metric_alookup_other {s : MV} {n : String} (v : Value) {m : String}
    (hmn : m ≠ n) :
    alookup (s.add_metric n v).metrics m = alookup s.metrics m := by
  simp only [MV.add_metric]
  cases hq : alookup s.metrics n with
  | some w =>
      simp only [Option.isSome_some, if_true]
      exact alookup_amodify_of_ne _ _ hmn
  | none =>
      simp only [Option.isSome_none, Bool.false_eq_true, if_false]
      cases hq2 : alookup s.metrics m with
      | some w2 => exact alookup_append_of_some _ hq2
      | none =>
          rw [alookup_append_of_none _ hq2]
          have h3 : ¬ n = m := fun hc => hmn hc.symm
          simp [alookup, h3]

theorem add_metric_alookup_self (s : MV) (n : String) (v : Value) :
    alookup (s.add_metric n v).metrics n =
      some (addSample ((alookup s.metrics n).getD []) (trialKey s.trial_id) v) := by
  simp only [MV.add_metric]
  cases hq : alookup s.metrics n with
  | some w =>
      simp only [Option.isSome_some, if_true]
      rw [alookup_amodify_self, hq]
      rfl
  | none =>
      simp only [Option.isSome_none, Bool.false_eq_true, if_false]
      rw [alookup_append_of_none _ hq]
      simp [alookup, addSample]

theorem keys_addSample (tm : TrialMap) (tkey : String) (value : Value) :
    (addSample tm tkey value).map Prod.fst =
      if tkey ∈ tm.map Prod.fst then tm.map Prod.fst
      else tm.map Prod.fst ++ [tkey] := by
  rw [addSample]
  cases h : alookup tm tkey with
  | some w =>
      have hm : tkey ∈ tm.map Prod.fst := (alookup_isSome_iff _ _).mp (by simp [h])
      simp [hm, keys_amodify]
  | none =>
      have hm : tkey ∉ tm.map Prod.fst := (alookup_eq_none_iff _ _).mp h
      simp [hm]

theorem add_metric_key_mem (s : MV) (n : String) (v : Value) (m : String) (x : Nat) :
    (∃ tm0, alookup (s.add_metric n v).metrics m = some tm0 ∧
      trialKey x ∈ tm0.map Prod.fst) ↔
    ((∃ tm0, alookup s.metrics m = some tm0 ∧ trialKey x ∈ tm0.map Prod.fst) ∨
      (n = m ∧ x = s.trial_id)) := by
  by_cases hnm : n = m
  · subst hnm
    rw [add_metric_alookup_self]
    cases hw : alookup s.metrics n with
    | some w =>
        simp only [hw, Option.getD_some]
        constructor
        · rintro ⟨tm0, htm0, hmem⟩
          have htm1 : addSample w (trialKey s.trial_id) v = tm0 := Option.some.inj htm0
          subst htm1
          rw [keys_addSample] at hmem
          by_cases htk : trialKey s.trial_id ∈ w.map Prod.fst
          · rw [if_pos htk] at hmem
            exact Or.inl ⟨w, rfl, hmem⟩
          · rw [if_neg htk] at hmem
            rcases List.mem_append.mp hmem with h1 | h1
            · exact Or.inl ⟨w, rfl, h1⟩
            · have h2 : trialKey x = trialKey s.trial_id := by simpa using h1
              exact Or.inr ⟨trivial, trialKey_inj h2⟩
        · rintro (⟨tm0, htm0, hmem⟩ | ⟨-, hx⟩)
          · have htm1 : w = tm0 := Option.some.inj htm0
            subst htm1
            refine ⟨addSample w (trialKey s.trial_id) v, rfl, ?_⟩
            rw [keys_addSample]
            by_cases htk : trialKey s.trial_id ∈ w.map Prod.fst
            · rw [if_pos htk]; exact hmem
            · rw [if_neg htk]; exact List.mem_append.mpr (Or.inl hmem)
          · subst hx
            refine ⟨addSample w (trialKey s.trial_id) v, rfl, ?_⟩
            rw [keys_addSample]
            by_cases htk : trialKey s.trial_id ∈ w.map Prod.fst
            · rw [if_pos htk]; exact htk
            · rw [if_neg htk]; exact List.mem_append.mpr (Or.inr (by simp))
    | none =>
        simp only [hw, Option.getD_none]
        constructor
        · rintro ⟨tm0, htm0, hmem⟩
          have htm1 : addSample [] (trialKey s.trial_id) v = tm0 := Option.some.inj htm0
          subst htm1
          have h2 : trialKey x = trialKey s.trial_id := by
            simpa [addSample, alookup] using hmem
          exact Or.inr ⟨trivial, trialKey_inj h2⟩
        · rintro (⟨tm0, htm0, _⟩ | ⟨-, hx⟩)
          · exact absurd htm0 (by simp)
          · subst hx
            exact ⟨addSample [] (trialKey s.trial_id) v, rfl, by simp [addSample, alookup]⟩
  · have hmn : m ≠ n := fun hc => hnm hc.symm
    rw [add_metric_alookup_other v hmn]
    simp [hnm]

theorem runFrom_keys_addedTrials : ∀ (ops : List Op) (s : MV), MVInv s →
    ∀ (m : String) (tm : TrialMap),
    alookup (runFrom s ops).metrics m = some tm →
    ∃ ids : List Nat, tm.map Prod.fst = ids.map trialKey ∧ ids.Nodup ∧
      ∀ x, (x ∈ ids ↔
        ((∃ tm0, alookup s.metrics m = some tm0 ∧ trialKey x ∈ tm0.map Prod.fst) ∨
         x ∈ addedTrialsFrom s.trial_id ops m)) := by
  intro ops
  induction ops with
  | nil =>
      intro s hs m tm h
      obtain ⟨ids, h1, h2, _⟩ := hs m tm h
      refine ⟨ids, h1, List.Pairwise.imp ne_of_lt (List.chain'_iff_pairwise.mp h2), ?_⟩
      intro x
      constructor
      · intro hx
        exact Or.inl ⟨tm, h, by rw [h1]; exact List.mem_map_of_mem _ hx⟩
      · intro hx
        rcases hx with ⟨tm0, h4, h5⟩ | h4
        · have htm : tm0 = tm := Option.some.inj (h4.symm.trans h)
          subst htm
          rw [h1] at h5
          obtain ⟨y, hy, hxy⟩ := List.mem_map.mp h5
          rwa [trialKey_inj hxy] at hy
        · exact absurd h4 (List.not_mem_nil x)
  | cons op rest ih =>
      intro s hs m tm h
      obtain ⟨ids, h1, h2, h3⟩ := ih (applyOp s op) (MVInv_applyOp op hs) m tm h
      refine ⟨ids, h1, h2, ?_⟩
      intro x
      rw [h3 x]
      cases op with
      | nextTrial => exact Iff.rfl
      | addMetric n v =>
          have happ : applyOp s (Op.addMetric n v) = s.add_metric n v := rfl
          rw [happ, add_metric_key_mem]
          have htid : (s.add_metric n v).trial_id = s.trial_id := by
            simp only [MV.add_metric]
            split <;> rfl
          rw [htid]
          by_cases hnm : n = m
          · subst hnm
            simp only [addedTrialsFrom, if_true, List.mem_cons]
            constructor
            · rintro ((hb | ⟨-, hx⟩) | ha)
              · exact Or.inl hb
              · exact Or.inr (Or.inl hx)
              · exact Or.inr (Or.inr ha)
            · rintro (hb | (hx | ha))
              · exact Or.inl (Or.inl hb)
              · exact Or.inl (Or.inr ⟨trivial, hx⟩)
              · exact Or.inr ha
          · simp only [addedTrialsFrom, if_neg hnm]
            constructor
            · rintro ((hb | ⟨hc, -⟩) | ha)
              · exact Or.inl hb
              · exact absurd hc hnm
              · exact Or.inr ha
            · rintro (hb | ha)
              · exact Or.inl (Or.inl hb)
              · exact Or.inr ha

/-- General behaviour of `add_metric`: it appends `value` to the sample
sequence at `(metric_name, trial-{current})`, creating the metric and/or
trial entry when absent, and is total. -/
theorem add_metric_lookup (s : MV) (n : String) (v : Value) :
    alookup2 (s.add_metric n v).metrics n (trialKey s.trial_id) =
      some ((alookup2 s.metrics n (trialKey s.trial_id)).getD [] ++ [v]) := by
  simp only [MV.add_metric]
  cases hm : alookup s.metrics n with
  | none =>
      simp only [hm, Option.isSome_none, Bool.false_eq_true, if_false]
      rw [alookup2, alookup_append_of_none _ hm]
      simp [alookup, alookup2, hm]
  | some tm =>
      simp only [hm, Option.isSome_some, if_true]
      rw [alookup2]
      rw [alookup_amodify_self, hm]
      rw [Option.map_some', Option.some_bind']
      rw [addSample]
      cases ht : alookup tm (trialKey s.trial_id) with
      | none =>
          simp only [Option.isSome_none, Bool.false_eq_true, if_false]
          rw [alookup_append_of_none _ ht]
          simp [alookup, alookup2, hm, ht]
      | some l0 =>
          simp only [Option.isSome_some, if_true]
          rw [alookup_amodify_self, ht]
          simp [alookup2, hm, ht]

/-- C1: for every store state, metric name and value, `add_metric(n, v)`
appends `v` to the sample sequence at `(n, "trial-{currentTrialId}")`,
creating the metric and/or trial entry if absent, and never fails; and the
concrete scenario add "Accuracy" 80, next_trial, add "Accuracy" 90 from a
fresh store yields `metrics["Accuracy"] = {"trial-0": [80], "trial-1": [90]}`. -/
theorem C1_add_metric_appends :
    (∀ (s : MV) (n : String) (v : Value),
      alookup2 (s.add_metric n v).metrics n (trialKey s.trial_id) =
        some ((alookup2 s.metrics n (trialKey s.trial_id)).getD [] ++ [v])) ∧
    (runOps [Op.addMetric "Accuracy" 80, Op.nextTrial,
             Op.addMetric "Accuracy" 90]).metrics =
      [("Accuracy", [("trial-0", [(80 : Value)]), ("trial-1", [90])])] := by
  refine ⟨add_metric_lookup, ?_⟩
  rfl

/-- C10: `add_metric()` with no arguments defaults to
`metric_name="Accuracy"` and `value=0`, so for every store state it
silently appends the sample 0 under "Accuracy" at the current trial
instead of failing. -/
theorem C10_add_metric_defaults :
    addMetricDefaultName = "Accuracy" ∧ addMetricDefaultValue = 0 ∧
    ∀ s : MV,
      alookup2 s.add_metric_noargs.metrics "Accuracy" (trialKey s.trial_id) =
        some ((alookup2 s.metrics "Accuracy" (trialKey s.trial_id)).getD [] ++ [0]) := by
  refine ⟨rfl, rfl, fun s => ?_⟩
  simpa [MV.add_metric_noargs, addMetricDefaultName, addMetricDefaultValue] using
    add_metric_lookup s "Accuracy" 0

/-- C9: `transpose` and `summary` leave every store field (metrics with
all trials and samples, name, trial_id, trial_tag, trial_tag_list)
unchanged: both only read the store and build fresh output. -/
theorem C9_views_leave_store_unchanged :
    ∀ s : MV,
      (s.transposeOp.2.metrics = s.metrics ∧ s.transposeOp.2.name = s.name ∧
       s.transposeOp.2.trial_id = s.trial_id ∧ s.transposeOp.2.trial_tag = s.trial_tag ∧
       s.transposeOp.2.trial_tag_list = s.trial_tag_list) ∧
      (s.summaryOp.2.metrics = s.metrics ∧ s.summaryOp.2.name = s.name ∧
       s.summaryOp.2.trial_id = s.trial_id ∧ s.summaryOp.2.trial_tag = s.trial_tag ∧
       s.summaryOp.2.trial_tag_list = s.trial_tag_list) :=
  fun _ => ⟨⟨rfl, rfl, rfl, rfl, rfl⟩, ⟨rfl, rfl, rfl, rfl, rfl⟩⟩

/-- C4 counterexample: in `summary`, a configured label list longer than
the metric's trial count resolves to its truncation, not to the trial
keys, refuting the claim that every mismatched length falls back to the
trial identifiers. -/
theorem C4_cex_summary_truncates :
    resolveSummaryLabels ["a", "b"] ["trial-0"] = ["a"] ∧
    resolveSummaryLabels ["a", "b"] ["trial-0"] ≠ ["trial-0"] := by
  constructor
  · rfl
  · decide

/-- C4 amended: the plotting functions resolve the labels to the
configured list exactly when its length equals the trial count and to the
trial keys otherwise; `summary` does the same except that a configured
list longer than the trial count resolves to its first trial-count
entries. -/
theorem C4_resolve_labels (ttl tkeys : List String) :
    resolvePlotLabels ttl tkeys =
      (if ttl.length = tkeys.length then ttl else tkeys) ∧
    resolveSummaryLabels ttl tkeys =
      (if ttl.length = tkeys.length then ttl
       else if tkeys.length < ttl.length then ttl.take tkeys.length else tkeys) := by
  by_cases hlen : ttl.length = tkeys.length
  · by_cases hnil : ttl = []
    · have hk : tkeys = [] := by
        subst hnil
        exact List.length_eq_zero.mp hlen.symm
      subst hnil; subst hk
      exact ⟨rfl, rfl⟩
    · constructor
      · rw [resolvePlotLabels, if_neg (by simp [hnil, hlen]), if_pos hlen]
      · rw [resolveSummaryLabels, if_neg (by simp [hnil, hlen]), if_pos hlen]
  · constructor
    · rw [resolvePlotLabels, if_pos (Or.inr hlen), if_neg hlen]
    · rw [resolveSummaryLabels, if_pos (Or.inr hlen), if_neg hlen]

/-! ### Persistence lemmas -/

theorem strLtList_irrefl : ∀ (a : List Char), strLtList a a = false := by
  intro a
  induction a with
  | nil => rfl
  | cons x xs ih => simp [strLtList, ih]

theorem strLtList_trans : ∀ (a b c : List Char), strLtList a b = true →
    strLtList b c = true → strLtList a c = true := by
  intro a
  induction a with
  | nil =>
      intro b c h1 h2
      cases b with
      | nil => simp [strLtList] at h1
      | cons y ys =>
          cases c with
          | nil => simp [strLtList] at h2
          | cons z zs => rfl
  | cons x xs ih =>
      intro b c h1 h2
      cases b with
      | nil => simp [strLtList] at h1
      | cons y ys =>
          cases c with
          | nil => simp [strLtList] at h2
          | cons z zs =>
              rw [strLtList] at h1 h2 ⊢
              by_cases hxy : x.toNat < y.toNat
              · by_cases hyz : y.toNat < z.toNat
                · rw [if_pos (by omega)]
                · rw [if_neg hyz] at h2
                  by_cases hzy : z.toNat < y.toNat
                  · rw [if_pos hzy] at h2; exact absurd h2 (by simp)
                  · rw [if_pos (by omega)]
              · rw [if_neg hxy] at h1
                by_cases hyx : y.toNat < x.toNat
                · rw [if_pos hyx] at h1; exact absurd h1 (by simp)
                · rw [if_neg hyx] at h1
                  by_cases hyz : y.toNat < z.toNat
                  · rw [if_pos (by omega)]
                  · rw [if_neg hyz] at h2
                    by_cases hzy : z.toNat < y.toNat
                    · rw [if_pos hzy] at h2; exact absurd h2 (by simp)
                    · rw [if_neg hzy] at h2
                      rw [if_neg (by omega), if_neg (by omega)]
                      exact ih ys zs h1 h2

theorem strLtList_trans_not : ∀ (a b c : List Char), strLtList a b = true →
    strLtList c b = false → strLtList a c = true := by
  intro a
  induction a with
  | nil =>
      intro b c h1 h2
      cases b with
      | nil => simp [strLtList] at h1
      | cons y ys =>
          cases c with
          | nil => simp [strLtList] at h2
          | cons z zs => rfl
  | cons x xs ih =>
      intro b c h1 h2
      cases b with
      | nil => simp [strLtList] at h1
      | cons y ys =>
          cases c with
          | nil => simp [strLtList] at h2
          | cons z zs =>
              rw [strLtList] at h1 h2 ⊢
              by_cases hzy : z.toNat < y.toNat
              · rw [if_pos hzy] at h2; exact absurd h2 (by simp)
              · rw [if_neg hzy] at h2
                by_cases hxy : x.toNat < y.toNat
                · by_cases hyz : y.toNat < z.toNat
                  · rw [if_pos (by omega)]
                  · rw [if_pos (by omega)]
                · rw [if_neg hxy] at h1
                  by_cases hyx : y.toNat < x.toNat
                  · rw [if_pos hyx] at h1; exact absurd h1 (by simp)
                  · rw [if_neg hyx] at h1
                    by_cases hyz : y.toNat < z.toNat
                    · rw [if_pos (by omega)]
                    · rw [if_neg hyz] at h2
                      rw [if_neg (by omega), if_neg (by omega)]
                      exact ih ys zs h1 h2

theorem strLt_trans {a b c : String} (h1 : strLt a b = true)
    (h2 : strLt b c = true) : strLt a c = true :=
  strLtList_trans a.data b.data c.data h1 h2

theorem strLt_trans_not {a b c : String} (h1 : strLt a b = true)
    (h2 : strLt c b = false) : strLt a c = true :=
  strLtList_trans_not a.data b.data c.data h1 h2

theorem foldl_pymax_mem : ∀ (xs : List String) (x : String),
    xs.foldl (fun acc s => if strLt acc s then s else acc) x = x ∨
    xs.foldl (fun acc s => if strLt acc s then s else acc) x ∈ xs := by
  intro xs
  induction xs with
  | nil => intro x; exact Or.inl rfl
  | cons y ys ih =>
      intro x
      rcases ih (if strLt x y then y else x) with h | h
      · simp only [List.foldl_cons]
        by_cases hxy : strLt x y = true
        · right
          rw [h, if_pos hxy]
          exact List.mem_cons_self _ _
        · left
          rw [h, if_neg hxy]
      · right
        simp only [List.foldl_cons]
        exact List.mem_cons_of_mem _ h

theorem foldl_pymax_ge : ∀ (xs : List String) (x : String),
    strLt (xs.foldl (fun acc s => if strLt acc s then s else acc) x) x = false ∧
    ∀ c ∈ xs, strLt (xs.foldl (fun acc s => if strLt acc s then s else acc) x) c = false := by
  intro xs
  induction xs with
  | nil =>
      intro x
      exact ⟨strLtList_irrefl x.data, fun c hc => absurd hc (List.not_mem_nil c)⟩
  | cons y ys ih =>
      intro x
      obtain ⟨hA, hB⟩ := ih (if strLt x y then y else x)
      simp only [List.foldl_cons]
      have hrx : strLt (ys.foldl (fun acc s => if strLt acc s then s else acc)
          (if strLt x y then y else x)) x = false := by
        by_cases hxy : strLt x y = true
        · rw [if_pos hxy] at hA
          cases hc : strLt (ys.foldl (fun acc s => if strLt acc s then s else acc)
              (if strLt x y then y else x)) x with
          | false => rfl
          | true =>
              rw [if_pos hxy] at hc
              have := strLt_trans hc hxy
              rw [this] at hA
              exact absurd hA (by simp)
        · rw [if_neg hxy] at hA
          rw [if_neg hxy]
          exact hA
      refine ⟨hrx, ?_⟩
      intro c hc
      rcases List.mem_cons.mp hc with hcy | hcy
      · subst hcy
        by_cases hxy : strLt x c = true
        · rw [if_pos hxy] at hA ⊢
          exact hA
        · have hxy2 : strLt x c = false := by
            cases hq : strLt x c with
            | false => rfl
            | true => exact absurd hq hxy
          rw [if_neg hxy] at hrx ⊢
          cases hq : strLt (ys.foldl (fun acc s => if strLt acc s then s else acc) x) c with
          | false => rfl
          | true =>
              have := strLt_trans_not hq hxy2
              rw [this] at hrx
              exact absurd hrx (by simp)
      · exact hB c hcy

theorem pyMax_mem {l : List String} {b : String} (h : pyMax l = some b) : b ∈ l := by
  cases l with
  | nil => simp [pyMax] at h
  | cons x xs =>
      rw [pyMax] at h
      have hb := Option.some.inj h
      rcases foldl_pymax_mem xs x with h2 | h2
      · rw [← hb, h2]; exact List.mem_cons_self _ _
      · rw [← hb]; exact List.mem_cons_of_mem _ h2

theorem pyMax_ge {l : List String} {b : String} (h : pyMax l = some b) :
    ∀ c ∈ l, strLt b c = false := by
  cases l with
  | nil => simp [pyMax] at h
  | cons x xs =>
      rw [pyMax] at h
      have hb := Option.some.inj h
      intro c hc
      rw [← hb]
      rcases List.mem_cons.mp hc with hcy | hcy
      · subst hcy; exact (foldl_pymax_ge xs c).1
      · exact (foldl_pymax_ge xs x).2 c hcy

/-- C7: dumping a store and loading the produced blob name reconstructs a
store whose metrics, name and trial counter equal the originals. -/
theorem C7_dump_load_roundtrip (s : MV) (filename : String) (fs : FileStore) :
    ∃ r, MV.load (dumpName s filename) (MV.dump s filename fs) = Except.ok r ∧
      r.metrics = s.metrics ∧ r.name = s.name ∧ r.trial_id = s.trial_id := by
  refine ⟨s, ?_, rfl, rfl, rfl⟩
  simp only [MV.load, MV.dump]
  rw [alookup_aassign_self]

/-- C8: behaviour of `load` on a filename pattern: an exact file is
loaded directly; with no exact file and zero substring candidates it fails
with the Can-not-find error; and with candidates it picks the
lexicographically greatest candidate name (a member no candidate exceeds
in the code-point order `strLt`) and loads that file. -/
theorem C8_load_selection (p : String) (fs : FileStore) :
    (∀ b, alookup fs p = some b → MV.load p fs = Except.ok b) ∧
    (alookup fs p = none →
      fs.filter (fun e => containsSub e.1 p) = [] →
      MV.load p fs = Except.error ("Can not find " ++ p)) ∧
    (∀ best, alookup fs p = none →
      pyMax ((fs.filter (fun e => containsSub e.1 p)).map Prod.fst) = some best →
      best ∈ (fs.filter (fun e => containsSub e.1 p)).map Prod.fst ∧
      (∀ c ∈ (fs.filter (fun e => containsSub e.1 p)).map Prod.fst,
        strLt best c = false) ∧
      ∃ b, alookup fs best = some b ∧ MV.load p fs = Except.ok b) := by
  refine ⟨?_, ?_, ?_⟩
  · intro b hb
    simp only [MV.load, hb]
  · intro h1 h2
    simp only [MV.load, h1, h2]
    rfl
  · intro best h1 h2
    refine ⟨pyMax_mem h2, pyMax_ge h2, ?_⟩
    have hmem : best ∈ fs.map Prod.fst := by
      obtain ⟨e, he, hfst⟩ := List.mem_map.mp (pyMax_mem h2)
      rw [← hfst]
      exact List.mem_map_of_mem _ (List.mem_of_mem_filter he)
    obtain ⟨b, hb⟩ := Option.isSome_iff_exists.mp ((alookup_isSome_iff fs best).mpr hmem)
    refine ⟨b, hb, ?_⟩
    simp only [MV.load, h1, h2, hb]

/-- C8 witness: the three selection behaviours at concrete file stores. -/
theorem C8_load_selection_witness :
    MV.load "exp-trial_id-0-a.dat" [("exp-trial_id-0-a.dat", freshMV)] =
      Except.ok freshMV ∧
    MV.load "zzz" [("exp-trial_id-0-a.dat", freshMV)] =
      Except.error ("Can not find " ++ "zzz") ∧
    ∃ b, alookup [("run-a1", freshMV), ("run-a2", freshMV.next_trial)] "run-a2" = some b ∧
      MV.load "run-a" [("run-a1", freshMV), ("run-a2", freshMV.next_trial)] =
        Except.ok b := by
  refine ⟨?_, ?_, ?_⟩
  · exact (C8_load_selection "exp-trial_id-0-a.dat"
      [("exp-trial_id-0-a.dat", freshMV)]).1 freshMV rfl
  · exact (C8_load_selection "zzz" [("exp-trial_id-0-a.dat", freshMV)]).2.1
      (by rfl) (by rfl)
  · exact ((C8_load_selection "run-a"
      [("run-a1", freshMV), ("run-a2", freshMV.next_trial)]).2.2 "run-a2"
      (by rfl) (by rfl)).2.2

/-- C2 counterexample: after add "A" 1; next_trial(), metric "A" holds
one trial entry, but one nextTrial call has happened since its first use,
so the claimed count of 1 + 1 = 2 trial entries is wrong. -/
theorem C2_cex_next_without_add :
    ((alookup (runOps [Op.addMetric "A" 1, Op.nextTrial]).metrics "A").getD []).length = 1 ∧
    nextsSinceFirstUse [Op.addMetric "A" 1, Op.nextTrial] "A" = some 1 ∧
    (1 : Nat) ≠ 1 + 1 := by
  refine ⟨rfl, rfl, by omega⟩

/-- C2 amended: for every operation sequence from a fresh store and every
metric present in the result, the number of trial entries recorded under
the metric equals the number of distinct trial ids at which `add_metric`
was called for it (not the number of `next_trial` calls since first use
plus one: trials in which the metric receives no sample create no entry). -/
theorem C2_trial_entry_count (ops : List Op) (m : String) (tm : TrialMap)
    (h : alookup (runOps ops).metrics m = some tm) :
    tm.length = (addedTrials ops m).dedup.length := by
  obtain ⟨ids, h1, h2, h3⟩ := runFrom_keys_addedTrials ops freshMV MVInv_fresh m tm h
  have h3' : ∀ x, x ∈ ids ↔ x ∈ addedTrials ops m := by
    intro x
    rw [h3 x, addedTrials]
    constructor
    · rintro (⟨tm0, htm0, -⟩ | ha)
      · exact absurd htm0 (by simp [freshMV, MVinit, alookup])
      · exact ha
    · intro ha
      exact Or.inr ha
  have hlen : tm.length = ids.length := by
    have hl := congrArg List.length h1
    simpa using hl
  have hfin : ids.toFinset = (addedTrials ops m).toFinset := by
    ext x
    simp [List.mem_toFinset, h3' x]
  calc tm.length = ids.length := hlen
    _ = ids.toFinset.card := (List.toFinset_card_of_nodup h2).symm
    _ = (addedTrials ops m).toFinset.card := by rw [hfin]
    _ = (addedTrials ops m).dedup.length := List.card_toFinset _

/-- C2 witness: the amended count at a concrete run in which "A" is added
twice in trial 0 and once in trial 1. -/
theorem C2_trial_entry_count_witness :
    alookup (runOps [Op.addMetric "A" 1, Op.addMetric "A" 2, Op.nextTrial,
        Op.addMetric "A" 3]).metrics "A" =
      some [("trial-0", [1, 2]), ("trial-1", [3])] ∧
    ([("trial-0", [(1 : Value), 2]), ("trial-1", [3])] : TrialMap).length =
      (addedTrials [Op.addMetric "A" 1, Op.addMetric "A" 2, Op.nextTrial,
        Op.addMetric "A" 3] "A").dedup.length := by
  refine ⟨rfl, ?_⟩
  exact C2_trial_entry_count _ "A" _ rfl

/-- C6: for every store reachable from a fresh store: an introduced
metric name stays present under every later operation sequence; each
metric's trial keys are the rendered keys of a strictly increasing list of
trial ids (so trial entries are introduced in increasing trial-id order);
stored sample lists only ever grow by appending; and `add_metric` never
touches the sample list of any other trial key. -/
theorem C6_store_invariants :
    (∀ (ops more : List Op) (m : String),
      (alookup (runOps ops).metrics m).isSome = true →
      (alookup (runOps (ops ++ more)).metrics m).isSome = true) ∧
    (∀ (ops : List Op) (m : String) (tm : TrialMap),
      alookup (runOps ops).metrics m = some tm →
      ∃ ids : List Nat, tm.map Prod.fst = ids.map trialKey ∧
        ids.Chain' (fun a b => a < b)) ∧
    (∀ (ops more : List Op) (m t : String) (l : List Value),
      alookup2 (runOps ops).metrics m t = some l →
      ∃ l2, alookup2 (runOps (ops ++ more)).metrics m t = some (l ++ l2)) ∧
    (∀ (s : MV) (n : String) (v : Value) (m t : String),
      t ≠ trialKey s.trial_id →
      alookup2 (s.add_metric n v).metrics m t = alookup2 s.metrics m t) := by
  refine ⟨?_, ?_, ?_, add_metric_other_trials⟩
  · intro ops more m h
    rw [runOps_append]
    exact metric_persists_runFrom more _ m h
  · intro ops m tm h
    obtain ⟨ids, h1, h2, _⟩ := MVInv_runOps ops m tm h
    exact ⟨ids, h1, h2⟩
  · intro ops more m t l h
    rw [runOps_append]
    exact samples_extend_runFrom more _ m t l h

/-- C6 witness: the invariants instantiated on the run
add "A" 1; next_trial, and the frame property at a fresh store. -/
theorem C6_store_invariants_witness :
    (alookup (runOps ([Op.addMetric "A" 1] ++ [Op.nextTrial])).metrics "A").isSome = true ∧
    (∃ ids : List Nat,
      ([("trial-0", [(1 : Value)])] : TrialMap).map Prod.fst = ids.map trialKey ∧
      ids.Chain' (fun a b => a < b)) ∧
    (∃ l2, alookup2 (runOps ([Op.addMetric "A" 1] ++ [Op.nextTrial])).metrics "A" "trial-0" =
      some ([(1 : Value)] ++ l2)) ∧
    alookup2 (freshMV.add_metric "B" 2).metrics "B" "trial-1" =
      alookup2 freshMV.metrics "B" "trial-1" := by
  refine ⟨?_, ?_, ?_, ?_⟩
  · exact C6_store_invariants.1 [Op.addMetric "A" 1] [Op.nextTrial] "A" (by rfl)
  · exact C6_store_invariants.2.1 [Op.addMetric "A" 1] "A" [("trial-0", [1])] (by rfl)
  · exact C6_store_invariants.2.2.1 [Op.addMetric "A" 1] [Op.nextTrial] "A" "trial-0" [1] (by rfl)
  · exact C6_store_invariants.2.2.2 freshMV "B" 2 "B" "trial-1" (by decide)

/-- C3: for every metrics mapping `m` (with the key distinctness every
Python dict has), `transpose` swaps the two outer dimensions pointwise —
`transpose(m)[t][k] == m[k][t]` wherever defined, the innermost sample
sequences passed through unchanged — its outer keys are the trial keys in
first-seen insertion order, and the double transpose contains exactly the
same (metric, trial, samples) triples as `m`. -/
theorem C3_transpose_view (m : MetricsMap) (ho : OuterNodup m) (hi : InnerNodup m) :
    (∀ t k, alookup2 (transposeFn m) t k = alookup2 m k t) ∧
    (transposeFn m).map Prod.fst =
      firstDedup ((m.map (fun e => e.2.map Prod.fst)).flatten) ∧
    (∀ k t, alookup2 (transposeFn (transposeFn m)) k t = alookup2 m k t) := by
  refine ⟨transposeFn_lookup m ho hi, keys_transposeFn m, fun k t => ?_⟩
  rw [transposeFn_lookup (transposeFn m) (outerNodup_transposeFn m)
    (innerNodup_transposeFn m), transposeFn_lookup m ho hi]

/-- C3 witness: the transpose properties instantiated at a concrete
two-metric mapping. -/
theorem C3_transpose_view_witness :
    OuterNodup [("M1", [("trial-0", [(1 : Value)]), ("trial-1", [2])]),
                ("M2", [("trial-0", [3])])] ∧
    InnerNodup [("M1", [("trial-0", [(1 : Value)]), ("trial-1", [2])]),
                ("M2", [("trial-0", [3])])] ∧
    alookup2 (transposeFn [("M1", [("trial-0", [(1 : Value)]), ("trial-1", [2])]),
                ("M2", [("trial-0", [3])])]) "trial-0" "M2" = some [3] := by
  refine ⟨by decide, by decide, ?_⟩
  rw [(C3_transpose_view _ (by decide) (by decide)).1 "trial-0" "M2"]
  rfl

/-- C5: the code applies `np.average` / `np.sum` to each trial's sample
list with no emptiness guard; at the failing input
`{"M": {"trial-0": []}}` the avg bar reduction yields NaN (modelled
`none`) and the sum bar reduction yields 0 — no InvalidInput error
exists in either code path. -/
theorem C5_empty_trial_reductions :
    avgBarY [("M", [("trial-0", [])])] "M" = [none] ∧
    sumBarY [("M", [("trial-0", [])])] "M" = [(0 : Value)] :=
  ⟨rfl, rfl⟩

end MetricVis
